import Mathlib

/-!
Verification of the `blocktracker` repository: a bounded in-memory block
history with a reconciliation algorithm (rollback of reorganizations,
backfill of gaps) driven by a polling loop.

The Go code is embedded shallowly:
* `common.Hash` becomes `Nat` (only equality of hashes is ever used);
* the `Block` interface (methods `Hash`, `ParentHash`) becomes a structure;
* the `EthClient.BlockByHash` capability becomes a pure partial map
  `Client := Nat → Option Block` (`none` models a failed fetch);
* in-place mutation of the `blocks` field becomes explicit state passing:
  every operation returns the resulting buffer;
* the unbounded Go recursion of `handleReconcile`/`backfill` is given a
  fuel parameter; running out of fuel yields the distinguished error
  `"out of fuel"`, which corresponds to a Go execution that is still
  recursing (it is a modelling artifact, not a behavior of the program).

Two reconcilers are embedded.  `handleReconcile`/`backfill` follow
src/blocktracker.go (lines 93-132) exactly; there the functions return
nothing and a failed ancestor fetch panics ("Father not found"), which is
modelled as the error value.  The repository's current Event-returning
reconciler is not under src/ (only its test, unnamed/part_002, and its
caller, cmd/blocktracker/main.go, are), so `reconcile` models it from the
spec (§4.2): same buffer behavior, plus the aggregated `Event` payload and
the "parent not found" error return.
-/

namespace BlockTracker

/-- A block reference: only `Hash` and `ParentHash` are required
(src/blocktracker.go:36-39).  Hashes are modelled as `Nat`. -/
structure Block where
  hash : Nat
  parentHash : Nat
deriving DecidableEq, Repr

/-- The `BlockByHash` capability of `EthClient` (src/blocktracker.go:42-45),
as a pure partial map; `none` models a failed fetch. -/
def Client : Type := Nat → Option Block

/-- src/blocktracker.go:32. -/
def maxReconcileBlocks : Nat := 10

/-- `addBlock` (src/blocktracker.go:77-82): if the buffer is at capacity,
evict the oldest entry (index 0), then append. -/
def addBlock (blocks : List Block) (block : Block) : List Block :=
  (if blocks.length = maxReconcileBlocks then blocks.drop 1 else blocks) ++ [block]

/-- The Go method `exists` (src/blocktracker.go:84-91): some stored block
has the same hash.  Named `existsBlock` because `exists` is reserved in
Lean. -/
def existsBlock (blocks : List Block) (block : Block) : Bool :=
  blocks.any (fun b => b.hash = block.hash)

/-- `parentHashInHistory` (src/blocktracker.go:134-141): index of the first
stored block whose hash equals `hash`.  Go returns `-1` when absent; here
`Option Nat` models that. -/
def parentHashInHistory (blocks : List Block) (hash : Nat) : Option Nat :=
  match blocks with
  | [] => none
  | b :: rest =>
      if b.hash = hash then some 0 else (parentHashInHistory rest hash).map (· + 1)

/-- `handleReconcile` (src/blocktracker.go:93-120), src-faithful.  The Go
method mutates `b.blocks` in place and returns nothing; here the resulting
buffer is returned together with `.ok ()` for normal return or `.error`
for a panic inside `backfill` (or fuel exhaustion, a modelling artifact).

Cases, in source order: empty buffer → append; block already in history →
no-op; last entry is the parent → append; parent somewhere in history →
truncate after it and append; otherwise backfill.  The body of `backfill`
(src/blocktracker.go:124-132) is inlined in the last case so that the
recursion is structural on the fuel; the standalone `backfill` below and
the lemma `handleReconcile_backfill` recover the source's split into two
functions. -/
def handleReconcile (client : Client) :
    Nat → List Block → Block → List Block × Except String Unit
  | 0, blocks, _ => (blocks, .error "out of fuel")
  | fuel + 1, blocks, block =>
      if blocks = [] then
        (addBlock blocks block, .ok ())
      else if existsBlock blocks block then
        (blocks, .ok ())
      else if blocks.getLast?.map Block.hash = some block.parentHash then
        (addBlock blocks block, .ok ())
      else
        match parentHashInHistory blocks block.parentHash with
        | some indx => (addBlock (blocks.take (indx + 1)) block, .ok ())
        | none =>
            match client block.parentHash with
            | none => (blocks, .error "Father not found")
            | some parent =>
                match handleReconcile client fuel blocks parent with
                | (blocks2, .error e) => (blocks2, .error e)
                | (blocks2, .ok ()) => handleReconcile client fuel blocks2 block

/-- `backfill` (src/blocktracker.go:124-132), src-faithful: fetch the
parent by hash — the Go code panics with "Father not found" on a failed
fetch (modelled as the error value, which aborts the remaining calls just
as the panic unwinds them) — then reconcile the parent and retry the
block. -/
def backfill (client : Client) (fuel : Nat) (blocks : List Block) (block : Block) :
    List Block × Except String Unit :=
  match client block.parentHash with
  | none => (blocks, .error "Father not found")
  | some parent =>
      match handleReconcile client fuel blocks parent with
      | (blocks2, .error e) => (blocks2, .error e)
      | (blocks2, .ok ()) => handleReconcile client fuel blocks2 block

/-- The `Event` aggregate delivered to the consumer: blocks added to and
removed from the canonical chain (spec §3; declared by the caller
cmd/blocktracker/main.go as `evnt.Added` / `evnt.Removed`). -/
structure Event where
  Added : List Block
  Removed : List Block
deriving DecidableEq, Repr

/-- Modelled from the spec (§4.2 step 5): the running event of a recursive
reconciliation, merging a sub-step's Added/Removed into the aggregate in
application order. -/
def mergeEvents : Option Event → Option Event → Option Event
  | none, e => e
  | some e, none => some e
  | some e1, some e2 => some ⟨e1.Added ++ e2.Added, e1.Removed ++ e2.Removed⟩

/-- Modelled from the spec: the Event-returning reconciler
`reconcile(observedBlock) → (Event | none, error)` of §4.2, whose Go
source (the current `handleReconcile`/`backfill` returning
`(*Event, error)`) is not under src/ — only its test (unnamed/part_002)
and caller (cmd/blocktracker/main.go) are.  The buffer behavior follows
src/blocktracker.go:93-132 case for case; in addition each append records
the block as Added, a truncation records the discarded suffix as Removed,
and a failed ancestor fetch returns the "parent not found" error instead
of panicking.  The resulting buffer is returned also on error, modelling
the in-place `b.blocks` field at the moment the error propagates. -/
def reconcile (client : Client) :
    Nat → List Block → Block → List Block × Except String (Option Event)
  | 0, blocks, _ => (blocks, .error "out of fuel")
  | fuel + 1, blocks, block =>
      if blocks = [] then
        (addBlock blocks block, .ok (some ⟨[block], []⟩))
      else if existsBlock blocks block then
        (blocks, .ok none)
      else if blocks.getLast?.map Block.hash = some block.parentHash then
        (addBlock blocks block, .ok (some ⟨[block], []⟩))
      else
        match parentHashInHistory blocks block.parentHash with
        | some indx =>
            (addBlock (blocks.take (indx + 1)) block,
              .ok (some ⟨[block], blocks.drop (indx + 1)⟩))
        | none =>
            match client block.parentHash with
            | none => (blocks, .error "parent not found")
            | some parent =>
                match reconcile client fuel blocks parent with
                | (blocks2, .error e) => (blocks2, .error e)
                | (blocks2, .ok evnt1) =>
                    match reconcile client fuel blocks2 block with
                    | (blocks3, .error e) => (blocks3, .error e)
                    | (blocks3, .ok evnt2) => (blocks3, .ok (mergeEvents evnt1 evnt2))

/-- A buffer mutation, at the granularity of the spec's history-buffer
operations (§4.1): an `append` (with its implicit capacity eviction) or a
`truncateAfter` at a given index. -/
inductive Mut where
  | append (b : Block)
  | truncate (indx : Nat)
deriving DecidableEq, Repr

/-- Apply one mutation to a buffer. -/
def applyMut (blocks : List Block) : Mut → List Block
  | .append b => addBlock blocks b
  | .truncate indx => blocks.take (indx + 1)

/-- Apply a list of mutations, left to right (application order). -/
def applyMuts (blocks : List Block) (ms : List Mut) : List Block :=
  ms.foldl applyMut blocks

/-- The blocks appended by a mutation list, in application order. -/
def appendsOf : List Mut → List Block
  | [] => []
  | .append b :: ms => b :: appendsOf ms
  | .truncate _ :: ms => appendsOf ms

/-- The buffer entries discarded by the truncations of a mutation list,
replayed from `blocks`, earliest-evicted first. -/
def discardsOf (blocks : List Block) : List Mut → List Block
  | [] => []
  | .append b :: ms => discardsOf (addBlock blocks b) ms
  | .truncate indx :: ms =>
      blocks.drop (indx + 1) ++ discardsOf (blocks.take (indx + 1)) ms

/-- The Added entries of an optional event (`none` carries none). -/
def eventAdded : Option Event → List Block
  | none => []
  | some e => e.Added

/-- The Removed entries of an optional event. -/
def eventRemoved : Option Event → List Block
  | none => []
  | some e => e.Removed

/-- `reconcile` instrumented with the list of buffer mutations it applies,
in application order; otherwise identical to `reconcile` (the agreement is
proved, not assumed).  On an error the mutations applied before the error
propagated are reported. -/
def reconcileLog (client : Client) :
    Nat → List Block → Block → List Block × List Mut × Except String (Option Event)
  | 0, blocks, _ => (blocks, [], .error "out of fuel")
  | fuel + 1, blocks, block =>
      if blocks = [] then
        (addBlock blocks block, [.append block], .ok (some ⟨[block], []⟩))
      else if existsBlock blocks block then
        (blocks, [], .ok none)
      else if blocks.getLast?.map Block.hash = some block.parentHash then
        (addBlock blocks block, [.append block], .ok (some ⟨[block], []⟩))
      else
        match parentHashInHistory blocks block.parentHash with
        | some indx =>
            (addBlock (blocks.take (indx + 1)) block,
              [.truncate indx, .append block],
              .ok (some ⟨[block], blocks.drop (indx + 1)⟩))
        | none =>
            match client block.parentHash with
            | none => (blocks, [], .error "parent not found")
            | some parent =>
                match reconcileLog client fuel blocks parent with
                | (blocks2, ms1, .error e) => (blocks2, ms1, .error e)
                | (blocks2, ms1, .ok evnt1) =>
                    match reconcileLog client fuel blocks2 block with
                    | (blocks3, ms2, .error e) => (blocks3, ms1 ++ ms2, .error e)
                    | (blocks3, ms2, .ok evnt2) =>
                        (blocks3, ms1 ++ ms2, .ok (mergeEvents evnt1 evnt2))

/-- The tracker state (src/blocktracker.go:47-54): the history buffer and
the reconcile-mode flag, together with the polling loop's `lastBlock`
local (src/blocktracker.go:156), folded into the state so that one poll
tick is a pure step function. -/
structure Tracker where
  blocks : List Block
  reconcile : Bool
  lastBlock : Option Block
deriving DecidableEq, Repr

/-- `NewBlockTracker` (src/blocktracker.go:57-64): empty buffer, reconcile
mode fixed by the constructor argument; the polling loop starts with no
last observed block. -/
def NewBlockTracker (reconcile : Bool) : Tracker :=
  { blocks := [], reconcile := reconcile, lastBlock := none }

/-- One tick of `polling` (src/blocktracker.go:154-177) with the `Start`
callback (src/blocktracker.go:144-152) inlined, src-faithful.  `head` is
the result of the `BlockByNumber` head fetch (`none` = fetch error).  The
second component is `.ok none` when nothing is emitted, `.ok (some b)`
when the callback sends `b` on the event channel, and `.error` when
`handleReconcile` panics inside the callback (so the send is never
reached). -/
def pollStep (client : Client) (fuel : Nat) (head : Option Block)
    (t : Tracker) : Tracker × Except String (Option Block) :=
  match head with
  | none => (t, .ok none)
  | some block =>
      if t.lastBlock.map Block.hash = some block.hash then
        (t, .ok none)
      else
        let t1 := { t with lastBlock := some block }
        if t.reconcile then
          match handleReconcile client fuel t1.blocks block with
          | (blocks', .ok ()) => ({ t1 with blocks := blocks' }, .ok (some block))
          | (blocks', .error e) => ({ t1 with blocks := blocks' }, .error e)
        else
          (t1, .ok (some block))

/-- The two payload shapes the outbound channel can carry (spec §6): a
bare block in non-reconciling mode, an Added/Removed aggregate in
reconciling mode. -/
inductive Payload where
  | bare (block : Block)
  | aggregate (evnt : Event)
deriving DecidableEq, Repr

/-- Modelled from the spec: the dispatch of the Event-carrying `Start`
(spec §4.3 step 3 and §6) — the Go source of that version is not under
src/; its caller cmd/blocktracker/main.go receives `Event` values.  In
reconciling mode the head goes through the reconciler and the resulting
event aggregate (if any) is the payload; with reconciliation disabled the
bare block itself is the payload. -/
def dispatchStep (client : Client) (fuel : Nat) (t : Tracker) (block : Block) :
    Tracker × Except String (Option Payload) :=
  if t.reconcile then
    match reconcile client fuel t.blocks block with
    | (blocks', .ok (some evnt)) =>
        ({ t with blocks := blocks' }, .ok (some (.aggregate evnt)))
    | (blocks', .ok none) => ({ t with blocks := blocks' }, .ok none)
    | (blocks', .error e) => ({ t with blocks := blocks' }, .error e)
  else
    (t, .ok (some (.bare block)))

/-- The number of ancestor-fetch hops `reconcile` needs before reaching a
block it can resolve against the buffer (spec §4.2 design rationale):
`some 0` when one of the four non-backfill cases applies to `block`
itself, `some (k+1)` when the parent can be fetched and resolves in `k`
hops; `none` when no such bound below the recursion limit `n` exists. -/
def hopsToHistory (client : Client) (blocks : List Block) :
    Nat → Block → Option Nat
  | 0, _ => none
  | n + 1, block =>
      if blocks = [] ∨ existsBlock blocks block ∨
          blocks.getLast?.map Block.hash = some block.parentHash ∨
          (parentHashInHistory blocks block.parentHash).isSome then
        some 0
      else
        match client block.parentHash with
        | none => none
        | some parent => (hopsToHistory client blocks n parent).map (· + 1)

/-- The buffer linkage invariant (spec §3): every adjacent pair `(prev,
next)` satisfies `next.ParentHash = prev.Hash`; empty and singleton
buffers satisfy it trivially. -/
def Chained (blocks : List Block) : Prop :=
  List.Chain' (fun prev next => next.parentHash = prev.hash) blocks

section Lemmas

lemma existsBlock_iff (blocks : List Block) (block : Block) :
    existsBlock blocks block = true ↔ block.hash ∈ blocks.map Block.hash := by
  unfold existsBlock
  rw [List.any_eq_true]
  simp only [List.mem_map, decide_eq_true_eq]

lemma parentHashInHistory_isSome (blocks : List Block) (hash : Nat) :
    (parentHashInHistory blocks hash).isSome = true ↔ hash ∈ blocks.map Block.hash := by
  induction blocks with
  | nil => simp [parentHashInHistory]
  | cons b rest ih =>
      rw [parentHashInHistory]
      by_cases hb : b.hash = hash
      · simp [hb]
      · rw [if_neg hb]
        rw [Option.isSome_map']
        rw [ih]
        simp [hb, Ne.symm hb]

lemma parentHashInHistory_get (blocks : List Block) (hash : Nat) (indx : Nat)
    (h : parentHashInHistory blocks hash = some indx) :
    ∃ x, blocks.get? indx = some x ∧ x.hash = hash := by
  induction blocks generalizing indx with
  | nil => simp [parentHashInHistory] at h
  | cons b rest ih =>
      by_cases hb : b.hash = hash
      · simp [parentHashInHistory, hb] at h
        exact ⟨b, by simp [← h], hb⟩
      · simp [parentHashInHistory, hb] at h
        obtain ⟨j, hj, rfl⟩ := h
        obtain ⟨x, hx, hxh⟩ := ih j hj
        exact ⟨x, by simpa using hx, hxh⟩

lemma addBlock_length_le (blocks : List Block) (block : Block)
    (h : blocks.length ≤ maxReconcileBlocks) :
    (addBlock blocks block).length ≤ maxReconcileBlocks := by
  unfold addBlock maxReconcileBlocks at *
  by_cases hl : blocks.length = 10
  all_goals simp [hl]
  all_goals omega

lemma addBlock_at_capacity (blocks : List Block) (block : Block)
    (h : blocks.length = maxReconcileBlocks) :
    addBlock blocks block = blocks.drop 1 ++ [block] := by
  simp [addBlock, h]

lemma handleReconcile_length (client : Client) (fuel : Nat) :
    ∀ blocks block, blocks.length ≤ maxReconcileBlocks →
      ((handleReconcile client fuel blocks block).1).length ≤ maxReconcileBlocks := by
  induction fuel with
  | zero => intro blocks block h; rw [handleReconcile]; exact h
  | succ fuel ih =>
      intro blocks block h
      rw [handleReconcile]
      split
      · exact addBlock_length_le _ _ h
      split
      · exact h
      split
      · exact addBlock_length_le _ _ h
      split
      · refine addBlock_length_le _ _ (le_trans ?_ h)
        rw [List.length_take]
        exact min_le_right _ _
      · split
        · exact h
        · rename_i parent _
          have h2 := ih blocks parent h
          split
          · rename_i blocks2 e heq
            rw [heq] at h2
            exact h2
          · rename_i blocks2 heq
            rw [heq] at h2
            exact ih blocks2 block h2

lemma handleReconcile_backfill (client : Client) (fuel : Nat)
    (blocks : List Block) (block : Block)
    (h1 : ¬blocks = []) (h2 : ¬existsBlock blocks block = true)
    (h3 : ¬blocks.getLast?.map Block.hash = some block.parentHash)
    (h4 : parentHashInHistory blocks block.parentHash = none) :
    handleReconcile client (fuel + 1) blocks block = backfill client fuel blocks block := by
  rw [handleReconcile, if_neg h1, if_neg h2, if_neg h3, h4]
  rfl

lemma addBlock_mem (blocks : List Block) (block : Block) :
    block.hash ∈ (addBlock blocks block).map Block.hash := by
  simp [addBlock]

lemma handleReconcile_exists_noop (client : Client) (fuel : Nat)
    (blocks : List Block) (block : Block) (h : existsBlock blocks block = true) :
    handleReconcile client (fuel + 1) blocks block = (blocks, .ok ()) := by
  have hne : ¬blocks = [] := by rintro rfl; simp [existsBlock] at h
  rw [handleReconcile, if_neg hne, if_pos h]

lemma reconcile_exists_noop (client : Client) (fuel : Nat)
    (blocks : List Block) (block : Block) (h : existsBlock blocks block = true) :
    reconcile client (fuel + 1) blocks block = (blocks, .ok none) := by
  have hne : ¬blocks = [] := by rintro rfl; simp [existsBlock] at h
  rw [reconcile, if_neg hne, if_pos h]

lemma handleReconcile_ok_mem (client : Client) (fuel : Nat) :
    ∀ blocks block blocks',
      handleReconcile client fuel blocks block = (blocks', .ok ()) →
      block.hash ∈ blocks'.map Block.hash := by
  induction fuel with
  | zero => intro blocks block blocks' h; rw [handleReconcile] at h; simp at h
  | succ fuel ih =>
      intro blocks block blocks' h
      rw [handleReconcile] at h
      split at h
      · rw [Prod.mk.injEq] at h
        obtain ⟨rfl, -⟩ := h
        exact addBlock_mem _ _
      split at h
      · rw [Prod.mk.injEq] at h
        obtain ⟨rfl, -⟩ := h
        rename_i hex
        exact (existsBlock_iff _ _).mp hex
      split at h
      · rw [Prod.mk.injEq] at h
        obtain ⟨rfl, -⟩ := h
        exact addBlock_mem _ _
      split at h
      · rw [Prod.mk.injEq] at h
        obtain ⟨rfl, -⟩ := h
        exact addBlock_mem _ _
      · split at h
        · simp at h
        · split at h
          · simp at h
          · exact ih _ _ _ h

lemma reconcile_ok_mem (client : Client) (fuel : Nat) :
    ∀ blocks block blocks' evnt,
      reconcile client fuel blocks block = (blocks', .ok evnt) →
      block.hash ∈ blocks'.map Block.hash := by
  induction fuel with
  | zero => intro blocks block blocks' evnt h; rw [reconcile] at h; simp at h
  | succ fuel ih =>
      intro blocks block blocks' evnt h
      rw [reconcile] at h
      split at h
      · rw [Prod.mk.injEq] at h
        obtain ⟨rfl, -⟩ := h
        exact addBlock_mem _ _
      split at h
      · rw [Prod.mk.injEq] at h
        obtain ⟨rfl, -⟩ := h
        rename_i hex
        exact (existsBlock_iff _ _).mp hex
      split at h
      · rw [Prod.mk.injEq] at h
        obtain ⟨rfl, -⟩ := h
        exact addBlock_mem _ _
      split at h
      · rw [Prod.mk.injEq] at h
        obtain ⟨rfl, -⟩ := h
        exact addBlock_mem _ _
      · split at h
        · simp at h
        · split at h
          · simp at h
          · split at h
            · simp at h
            · rw [Prod.mk.injEq] at h
              obtain ⟨rfl, -⟩ := h
              rename_i heq
              exact ih _ _ _ _ heq

lemma reconcile_parent_mem_no_pnf (client : Client) (fuel : Nat) :
    ∀ blocks block parent blocks',
      client block.parentHash = some parent →
      parent.hash ∈ blocks.map Block.hash →
      reconcile client fuel blocks block = (blocks', .error "parent not found") →
      False := by
  induction fuel with
  | zero =>
      intro blocks block parent blocks' h1 h2 h
      rw [reconcile] at h
      have h3 := congrArg Prod.snd h
      exact absurd (Except.error.inj h3) (by decide)
  | succ fuel ih =>
      intro blocks block parent blocks' h1 h2 h
      rw [reconcile] at h
      split at h
      · simp at h
      split at h
      · simp at h
      split at h
      · simp at h
      split at h
      · simp at h
      · split at h
        · rename_i hcl
          rw [h1] at hcl
          exact Option.noConfusion hcl
        · rename_i parent' hcl
          rw [h1] at hcl
          obtain rfl : parent = parent' := Option.some.inj hcl
          split at h
          · rename_i blocks2 e heq1
            have he : e = "parent not found" :=
              Except.error.inj (congrArg Prod.snd h)
            subst he
            cases fuel with
            | zero =>
                rw [reconcile] at heq1
                have h3 := congrArg Prod.snd heq1
                exact absurd (Except.error.inj h3) (by decide)
            | succ f =>
                rw [reconcile_exists_noop client f blocks parent
                  ((existsBlock_iff _ _).mpr h2)] at heq1
                simp at heq1
          · rename_i blocks2 evnt1 heq1
            split at h
            · rename_i blocks3 e heq2
              have he : e = "parent not found" :=
                Except.error.inj (congrArg Prod.snd h)
              subst he
              cases fuel with
              | zero =>
                  rw [reconcile] at heq1
                  simp at heq1
              | succ f =>
                  rw [reconcile_exists_noop client f blocks parent
                    ((existsBlock_iff _ _).mpr h2)] at heq1
                  rw [Prod.mk.injEq] at heq1
                  obtain ⟨hb, -⟩ := heq1
                  subst hb
                  exact ih blocks block parent blocks3 h1 h2 heq2
            · simp at h

lemma reconcile_pnf_unchanged (client : Client) (fuel : Nat) :
    ∀ blocks block blocks',
      reconcile client fuel blocks block = (blocks', .error "parent not found") →
      blocks' = blocks := by
  induction fuel with
  | zero =>
      intro blocks block blocks' h
      rw [reconcile] at h
      exact absurd (Except.error.inj (congrArg Prod.snd h)) (by decide)
  | succ fuel ih =>
      intro blocks block blocks' h
      rw [reconcile] at h
      split at h
      · simp at h
      split at h
      · simp at h
      split at h
      · simp at h
      split at h
      · simp at h
      · split at h
        · rw [Prod.mk.injEq] at h
          exact h.1.symm
        · rename_i parent hcl
          split at h
          · rename_i blocks2 e heq1
            rw [Prod.mk.injEq] at h
            obtain ⟨hb, he⟩ := h
            subst hb
            rw [Except.error.inj he] at heq1
            exact ih blocks parent _ heq1
          · rename_i blocks2 evnt1 heq1
            split at h
            · rename_i blocks3 e heq2
              rw [Prod.mk.injEq] at h
              obtain ⟨hb, he⟩ := h
              rw [Except.error.inj he] at heq2
              exact absurd heq2
                (fun hc => reconcile_parent_mem_no_pnf client fuel blocks2 block parent blocks3
                  hcl (reconcile_ok_mem client fuel _ _ _ _ heq1) hc)
            · simp at h

lemma reconcile_fetch_fail (client : Client) (fuel : Nat)
    (blocks : List Block) (block : Block)
    (h1 : ¬blocks = []) (h2 : ¬existsBlock blocks block = true)
    (h3 : ¬blocks.getLast?.map Block.hash = some block.parentHash)
    (h4 : parentHashInHistory blocks block.parentHash = none)
    (h5 : client block.parentHash = none) :
    reconcile client (fuel + 1) blocks block = (blocks, .error "parent not found") := by
  rw [reconcile, if_neg h1, if_neg h2, if_neg h3, h4, h5]

lemma reconcile_normal_append (client : Client) (fuel : Nat)
    (blocks : List Block) (block : Block)
    (h1 : ¬blocks = []) (h2 : ¬existsBlock blocks block = true)
    (h3 : blocks.getLast?.map Block.hash = some block.parentHash) :
    reconcile client (fuel + 1) blocks block =
      (addBlock blocks block, .ok (some ⟨[block], []⟩)) := by
  rw [reconcile, if_neg h1, if_neg h2, if_pos h3]

lemma handleReconcile_normal_append (client : Client) (fuel : Nat)
    (blocks : List Block) (block : Block)
    (h1 : ¬blocks = []) (h2 : ¬existsBlock blocks block = true)
    (h3 : blocks.getLast?.map Block.hash = some block.parentHash) :
    handleReconcile client (fuel + 1) blocks block = (addBlock blocks block, .ok ()) := by
  rw [handleReconcile, if_neg h1, if_neg h2, if_pos h3]

lemma reconcile_backfill_eq (client : Client) (fuel : Nat)
    (blocks : List Block) (block parent : Block)
    (h1 : ¬blocks = []) (h2 : ¬existsBlock blocks block = true)
    (h3 : ¬blocks.getLast?.map Block.hash = some block.parentHash)
    (h4 : parentHashInHistory blocks block.parentHash = none)
    (h5 : client block.parentHash = some parent) :
    reconcile client (fuel + 1) blocks block =
      (match reconcile client fuel blocks parent with
        | (blocks2, .error e) => (blocks2, .error e)
        | (blocks2, .ok evnt1) =>
            match reconcile client fuel blocks2 block with
            | (blocks3, .error e) => (blocks3, .error e)
            | (blocks3, .ok evnt2) => (blocks3, .ok (mergeEvents evnt1 evnt2))) := by
  rw [reconcile, if_neg h1, if_neg h2, if_neg h3, h4, h5]

lemma handleReconcile_backfill_eq (client : Client) (fuel : Nat)
    (blocks : List Block) (block parent : Block)
    (h1 : ¬blocks = []) (h2 : ¬existsBlock blocks block = true)
    (h3 : ¬blocks.getLast?.map Block.hash = some block.parentHash)
    (h4 : parentHashInHistory blocks block.parentHash = none)
    (h5 : client block.parentHash = some parent) :
    handleReconcile client (fuel + 1) blocks block =
      (match handleReconcile client fuel blocks parent with
        | (blocks2, .error e) => (blocks2, .error e)
        | (blocks2, .ok ()) => handleReconcile client fuel blocks2 block) := by
  rw [handleReconcile, if_neg h1, if_neg h2, if_neg h3, h4, h5]

lemma pollStep_new_head (client : Client) (fuel : Nat) (t : Tracker) (block : Block)
    (h : ¬t.lastBlock.map Block.hash = some block.hash) :
    pollStep client fuel (some block) t =
      ({ t with
          lastBlock := some block,
          blocks := if t.reconcile then (handleReconcile client fuel t.blocks block).1
            else t.blocks },
        if t.reconcile then
          match (handleReconcile client fuel t.blocks block).2 with
          | .ok () => .ok (some block)
          | .error e => .error e
        else .ok (some block)) := by
  by_cases hr : t.reconcile
  · rcases hh : handleReconcile client fuel t.blocks block with ⟨bs', r⟩
    cases r with
    | ok u => cases u; simp [pollStep, h, hr, hh]
    | error e => simp [pollStep, h, hr, hh]
  · simp [pollStep, h, hr]

lemma handleReconcile_parent_mem_ok (client : Client) (fuel : Nat)
    (blocks : List Block) (block : Block)
    (hmem : block.parentHash ∈ blocks.map Block.hash) :
    ∃ blocks', handleReconcile client (fuel + 1) blocks block = (blocks', .ok ()) := by
  have hne : ¬blocks = [] := by
    rintro rfl; simp at hmem
  by_cases hex : existsBlock blocks block = true
  · exact ⟨blocks, handleReconcile_exists_noop client fuel blocks block hex⟩
  by_cases hlast : blocks.getLast?.map Block.hash = some block.parentHash
  · exact ⟨addBlock blocks block,
      handleReconcile_normal_append client fuel blocks block hne hex hlast⟩
  · have hsome : (parentHashInHistory blocks block.parentHash).isSome = true :=
      (parentHashInHistory_isSome _ _).mpr hmem
    obtain ⟨indx, hph⟩ := Option.isSome_iff_exists.mp hsome
    refine ⟨addBlock (blocks.take (indx + 1)) block, ?_⟩
    rw [handleReconcile, if_neg hne, if_neg hex, if_neg hlast, hph]

lemma tail_getLast? {α : Type} : ∀ l : List α, l.tail = [] ∨ l.tail.getLast? = l.getLast?
  | [] => Or.inl rfl
  | [_] => Or.inl rfl
  | _ :: b :: t => Or.inr (by simp [List.getLast?_cons_cons])

lemma getLast?_take {α : Type} :
    ∀ (l : List α) (n : Nat), n < l.length → (l.take (n + 1)).getLast? = l.get? n := by
  intro l
  induction l with
  | nil => intro n h; simp at h
  | cons a t ih =>
      intro n h
      cases n with
      | zero => simp
      | succ m =>
          cases t with
          | nil => simp at h
          | cons b t' =>
              simp only [List.length_cons, Nat.add_lt_add_iff_right] at h
              rw [List.take_succ_cons, List.take_succ_cons, List.getLast?_cons_cons,
                List.get?_cons_succ]
              exact ih m h

lemma chained_addBlock (blocks : List Block) (b : Block)
    (hc : Chained blocks)
    (hlink : ∀ p, blocks.getLast? = some p → b.parentHash = p.hash) :
    Chained (addBlock blocks b) := by
  unfold addBlock
  split
  · rw [Chained, List.chain'_append]
    refine ⟨by rw [List.drop_one]; exact hc.tail, List.chain'_singleton _, ?_⟩
    intro x hx y hy
    simp only [List.head?_cons, Option.mem_def, Option.some.injEq] at hy
    subst hy
    rcases tail_getLast? blocks with ht | ht
    · rw [List.drop_one, ht] at hx
      simp at hx
    · rw [List.drop_one, ht] at hx
      exact hlink x hx
  · rw [Chained, List.chain'_append]
    refine ⟨hc, List.chain'_singleton _, ?_⟩
    intro x hx y hy
    simp only [List.head?_cons, Option.mem_def, Option.some.injEq] at hy
    subst hy
    exact hlink x hx

lemma handleReconcile_preserves_chained (client : Client) (fuel : Nat) :
    ∀ blocks block blocks' r,
      Chained blocks →
      handleReconcile client fuel blocks block = (blocks', r) →
      Chained blocks' := by
  induction fuel with
  | zero =>
      intro blocks block blocks' r hc h
      rw [handleReconcile] at h
      rw [Prod.mk.injEq] at h
      rw [← h.1]
      exact hc
  | succ fuel ih =>
      intro blocks block blocks' r hc h
      rw [handleReconcile] at h
      split at h
      · rename_i hemp
        rw [Prod.mk.injEq] at h
        rw [← h.1]
        subst hemp
        exact chained_addBlock [] block hc (by simp)
      split at h
      · rw [Prod.mk.injEq] at h
        rw [← h.1]
        exact hc
      split at h
      · rename_i hlast
        rw [Prod.mk.injEq] at h
        rw [← h.1]
        refine chained_addBlock blocks block hc ?_
        intro p hp
        rw [hp] at hlast
        exact (Option.some.inj hlast).symm
      split at h
      · rename_i indx hph
        rw [Prod.mk.injEq] at h
        rw [← h.1]
        obtain ⟨x, hx, hxh⟩ := parentHashInHistory_get blocks block.parentHash indx hph
        refine chained_addBlock _ block (hc.take _) ?_
        intro p hp
        have hlt : indx < blocks.length := by
          rcases List.get?_eq_some.mp hx with ⟨hl, -⟩
          exact hl
        rw [getLast?_take blocks indx hlt, hx] at hp
        obtain rfl : x = p := Option.some.inj hp
        exact hxh.symm
      · split at h
        · rw [Prod.mk.injEq] at h
          rw [← h.1]
          exact hc
        · split at h
          · rename_i blocks2 e heq
            rw [Prod.mk.injEq] at h
            rw [← h.1]
            exact ih blocks _ blocks2 _ hc heq
          · rename_i blocks2 heq
            exact ih blocks2 block blocks' r (ih blocks _ blocks2 _ hc heq) h

lemma appendsOf_append (ms1 ms2 : List Mut) :
    appendsOf (ms1 ++ ms2) = appendsOf ms1 ++ appendsOf ms2 := by
  induction ms1 with
  | nil => simp [appendsOf]
  | cons m ms ih => cases m <;> simp [appendsOf, ih]

lemma applyMuts_append (blocks : List Block) (ms1 ms2 : List Mut) :
    applyMuts blocks (ms1 ++ ms2) = applyMuts (applyMuts blocks ms1) ms2 := by
  simp [applyMuts, List.foldl_append]

lemma discardsOf_append (ms1 : List Mut) :
    ∀ (blocks : List Block) (ms2 : List Mut),
      discardsOf blocks (ms1 ++ ms2) =
        discardsOf blocks ms1 ++ discardsOf (applyMuts blocks ms1) ms2 := by
  induction ms1 with
  | nil => intro blocks ms2; simp [discardsOf, applyMuts]
  | cons m ms ih =>
      intro blocks ms2
      cases m with
      | append b => simp [discardsOf, ih, applyMuts, applyMut]
      | truncate i => simp [discardsOf, ih, applyMuts, applyMut]

lemma eventAdded_merge (e1 e2 : Option Event) :
    eventAdded (mergeEvents e1 e2) = eventAdded e1 ++ eventAdded e2 := by
  cases e1 <;> cases e2 <;> simp [mergeEvents, eventAdded]

lemma eventRemoved_merge (e1 e2 : Option Event) :
    eventRemoved (mergeEvents e1 e2) = eventRemoved e1 ++ eventRemoved e2 := by
  cases e1 <;> cases e2 <;> simp [mergeEvents, eventRemoved]

lemma mergeEvents_eq_none (e1 e2 : Option Event) :
    mergeEvents e1 e2 = none ↔ e1 = none ∧ e2 = none := by
  cases e1 <;> cases e2 <;> simp [mergeEvents]

lemma reconcile_eq_reconcileLog (client : Client) (fuel : Nat) :
    ∀ blocks block,
      reconcile client fuel blocks block =
        ((reconcileLog client fuel blocks block).1,
          (reconcileLog client fuel blocks block).2.2) := by
  induction fuel with
  | zero => intro blocks block; rw [reconcile, reconcileLog]
  | succ fuel ih =>
      intro blocks block
      rw [reconcile, reconcileLog]
      by_cases h1 : blocks = []
      · simp only [if_pos h1]
      simp only [if_neg h1]
      by_cases h2 : existsBlock blocks block = true
      · simp only [if_pos h2]
      simp only [if_neg h2]
      by_cases h3 : blocks.getLast?.map Block.hash = some block.parentHash
      · simp only [if_pos h3]
      simp only [if_neg h3]
      rcases hph : parentHashInHistory blocks block.parentHash with - | indx
      · simp only [hph]
        rcases hcl : client block.parentHash with - | parent
        · simp only [hcl]
        · simp only [hcl]
          rcases heq1 : reconcileLog client fuel blocks parent with ⟨blocks2, ms1, r1⟩
          have e1 : reconcile client fuel blocks parent = (blocks2, r1) := by
            rw [ih blocks parent, heq1]
          rw [e1]
          cases r1 with
          | error e => rfl
          | ok evnt1 =>
              dsimp only
              rcases heq2 : reconcileLog client fuel blocks2 block with ⟨blocks3, ms2, r2⟩
              have e2 : reconcile client fuel blocks2 block = (blocks3, r2) := by
                rw [ih blocks2 block, heq2]
              rw [e2]
              cases r2 with
              | error e => rfl
              | ok evnt2 => rfl
      · simp only [hph]

lemma reconcileLog_mutations (client : Client) (fuel : Nat) :
    ∀ blocks block blocks' ms oevt,
      reconcileLog client fuel blocks block = (blocks', ms, .ok oevt) →
      blocks' = applyMuts blocks ms ∧
      eventAdded oevt = appendsOf ms ∧
      eventRemoved oevt = discardsOf blocks ms ∧
      (oevt = none → ms = []) := by
  induction fuel with
  | zero =>
      intro blocks block blocks' ms oevt h
      rw [reconcileLog] at h
      simp at h
  | succ fuel ih =>
      intro blocks block blocks' ms oevt h
      rw [reconcileLog] at h
      split at h
      · rw [Prod.mk.injEq, Prod.mk.injEq] at h
        obtain ⟨h1, h2, h3⟩ := h
        subst h1; subst h2
        obtain rfl := Except.ok.inj h3
        exact ⟨by simp [applyMuts, applyMut], by simp [eventAdded, appendsOf],
          by simp [eventRemoved, discardsOf], fun hc => by simp at hc⟩
      split at h
      · rw [Prod.mk.injEq, Prod.mk.injEq] at h
        obtain ⟨h1, h2, h3⟩ := h
        subst h1; subst h2
        obtain rfl := Except.ok.inj h3
        exact ⟨by simp [applyMuts], by simp [eventAdded, appendsOf],
          by simp [eventRemoved, discardsOf], fun _ => rfl⟩
      split at h
      · rw [Prod.mk.injEq, Prod.mk.injEq] at h
        obtain ⟨h1, h2, h3⟩ := h
        subst h1; subst h2
        obtain rfl := Except.ok.inj h3
        exact ⟨by simp [applyMuts, applyMut], by simp [eventAdded, appendsOf],
          by simp [eventRemoved, discardsOf], fun hc => by simp at hc⟩
      split at h
      · rw [Prod.mk.injEq, Prod.mk.injEq] at h
        obtain ⟨h1, h2, h3⟩ := h
        subst h1; subst h2
        obtain rfl := Except.ok.inj h3
        exact ⟨by simp [applyMuts, applyMut], by simp [eventAdded, appendsOf],
          by simp [eventRemoved, discardsOf, applyMut], fun hc => by simp at hc⟩
      · split at h
        · simp at h
        · split at h
          · simp at h
          · rename_i blocks2 ms1 evnt1 heq1
            split at h
            · simp at h
            · rename_i blocks3 ms2 evnt2 heq2
              rw [Prod.mk.injEq, Prod.mk.injEq] at h
              obtain ⟨h1, h2, h3⟩ := h
              subst h1; subst h2
              obtain rfl := Except.ok.inj h3
              obtain ⟨hA1, hAdd1, hRem1, hN1⟩ := ih blocks _ blocks2 ms1 evnt1 heq1
              obtain ⟨hA2, hAdd2, hRem2, hN2⟩ := ih blocks2 block blocks3 ms2 evnt2 heq2
              refine ⟨?_, ?_, ?_, ?_⟩
              · rw [applyMuts_append, ← hA1, ← hA2]
              · rw [eventAdded_merge, appendsOf_append, hAdd1, hAdd2]
              · rw [eventRemoved_merge, discardsOf_append, ← hA1, hRem1, hRem2]
              · intro hnone
                obtain ⟨he1, he2⟩ := (mergeEvents_eq_none evnt1 evnt2).mp hnone
                simp [hN1 he1, hN2 he2]

end Lemmas

section Claims

/-- C5: the history buffer's length never exceeds the fixed capacity of 10
entries under append (`addBlock`) and reconcile (`handleReconcile`)
operations; every append performed at capacity first evicts exactly the
oldest entry (index 0) and never fails (it is a total function). -/
theorem capacity_bound :
    (∀ blocks block, blocks.length ≤ maxReconcileBlocks →
        (addBlock blocks block).length ≤ maxReconcileBlocks) ∧
    (∀ blocks block, blocks.length = maxReconcileBlocks →
        addBlock blocks block = blocks.drop 1 ++ [block]) ∧
    (∀ client fuel blocks block, blocks.length ≤ maxReconcileBlocks →
        ((handleReconcile client fuel blocks block).1).length ≤ maxReconcileBlocks) :=
  ⟨addBlock_length_le, addBlock_at_capacity,
    fun client fuel blocks block => handleReconcile_length client fuel blocks block⟩

/-- Witness for C5 at a full 10-entry buffer. -/
theorem capacity_bound_witness :
    (addBlock ((List.range 10).map fun i => ⟨i + 1, i⟩) ⟨11, 10⟩).length ≤ maxReconcileBlocks ∧
    addBlock ((List.range 10).map fun i => ⟨i + 1, i⟩) ⟨11, 10⟩ =
      (((List.range 10).map fun i => (⟨i + 1, i⟩ : Block))).drop 1 ++ [⟨11, 10⟩] ∧
    ((handleReconcile (fun _ => none) 1 ((List.range 10).map fun i => ⟨i + 1, i⟩) ⟨11, 10⟩).1).length ≤
      maxReconcileBlocks :=
  ⟨capacity_bound.1 _ _ (by decide),
    capacity_bound.2.1 _ _ (by decide),
    capacity_bound.2.2 (fun _ => none) 1 _ _ (by decide)⟩

/-- C6: reconciling a block whose hash equals the hash of some stored
block (regardless of its parent hash) is a no-op — no event, buffer
unchanged — both for the src reconciler `handleReconcile` and for the
Event-returning `reconcile`; in particular, after any successful
reconcile of a block, reconciling the same block again yields no event
and leaves the buffer unchanged. -/
theorem reconcile_known_block_noop :
    (∀ client fuel blocks block, existsBlock blocks block = true →
        handleReconcile client (fuel + 1) blocks block = (blocks, .ok ()) ∧
        reconcile client (fuel + 1) blocks block = (blocks, .ok none)) ∧
    (∀ client fuel fuel' blocks block blocks' evnt,
        reconcile client fuel blocks block = (blocks', .ok evnt) →
        reconcile client (fuel' + 1) blocks' block = (blocks', .ok none)) := by
  constructor
  · intro client fuel blocks block h
    exact ⟨handleReconcile_exists_noop client fuel blocks block h,
      reconcile_exists_noop client fuel blocks block h⟩
  · intro client fuel fuel' blocks block blocks' evnt h
    exact reconcile_exists_noop client fuel' blocks' block
      ((existsBlock_iff _ _).mpr (reconcile_ok_mem client fuel _ _ _ _ h))

/-- Witness for C6: a stored hash makes reconciliation a no-op, and a
second reconcile of a freshly added head yields no event. -/
theorem reconcile_known_block_noop_witness :
    (handleReconcile (fun _ => none) 1 [⟨1, 0⟩, ⟨2, 1⟩] ⟨2, 7⟩ = ([⟨1, 0⟩, ⟨2, 1⟩], .ok ()) ∧
      reconcile (fun _ => none) 1 [⟨1, 0⟩, ⟨2, 1⟩] ⟨2, 7⟩ = ([⟨1, 0⟩, ⟨2, 1⟩], .ok none)) ∧
    reconcile (fun _ => none) 1 [⟨1, 0⟩, ⟨2, 1⟩, ⟨3, 2⟩] ⟨3, 2⟩ =
      ([⟨1, 0⟩, ⟨2, 1⟩, ⟨3, 2⟩], .ok none) :=
  ⟨reconcile_known_block_noop.1 (fun _ => none) 0 [⟨1, 0⟩, ⟨2, 1⟩] ⟨2, 7⟩ (by decide),
    reconcile_known_block_noop.2 (fun _ => none) 1 0 [⟨1, 0⟩, ⟨2, 1⟩] ⟨3, 2⟩
      [⟨1, 0⟩, ⟨2, 1⟩, ⟨3, 2⟩] (some ⟨[⟨3, 2⟩], []⟩) rfl⟩

/-- C4: when a required ancestor fetch fails, reconciliation returns the
"parent not found" error (an error value, not a crash), and whenever the
"parent not found" error is returned the history buffer is exactly as it
was before the call (atomic all-or-nothing). -/
theorem reconcile_parent_not_found_atomic :
    (∀ client fuel blocks block,
        ¬blocks = [] → ¬existsBlock blocks block = true →
        ¬blocks.getLast?.map Block.hash = some block.parentHash →
        parentHashInHistory blocks block.parentHash = none →
        client block.parentHash = none →
        reconcile client (fuel + 1) blocks block = (blocks, .error "parent not found")) ∧
    (∀ client fuel blocks block blocks',
        reconcile client fuel blocks block = (blocks', .error "parent not found") →
        blocks' = blocks) :=
  ⟨reconcile_fetch_fail, reconcile_pnf_unchanged⟩

/-- Witness for C4: a client that cannot resolve the observed block's
parent makes reconciliation fail with "parent not found" and leave the
buffer `[⟨1,0⟩]` untouched. -/
theorem reconcile_parent_not_found_atomic_witness :
    reconcile (fun _ => none) 1 [⟨1, 0⟩] ⟨5, 3⟩ = ([⟨1, 0⟩], .error "parent not found") ∧
    ([⟨1, 0⟩] : List Block) = [⟨1, 0⟩] :=
  ⟨reconcile_parent_not_found_atomic.1 (fun _ => none) 0 [⟨1, 0⟩] ⟨5, 3⟩
      (by decide) (by decide) (by decide) (by decide) rfl,
    reconcile_parent_not_found_atomic.2 (fun _ => none) 1 [⟨1, 0⟩] ⟨5, 3⟩ [⟨1, 0⟩] rfl⟩

/-- C2: bounded-depth rollback.  For any four chained distinct blocks
`[B1,B2,B3,B4]` in the buffer and a fresh block `B3'` whose parent hash is
`B2`'s hash, reconciling `B3'` yields one event with `Removed = [B3,B4]`
and `Added = [B3']` and the final buffer `[B1,B2,B3']`; the src
`handleReconcile` produces the same final buffer.  No fetch is needed, so
this holds for every client and every positive fuel. -/
theorem reconcile_bounded_rollback (client : Client) (fuel : Nat)
    (b1 b2 b3 b4 b3' : Block)
    (_hc2 : b2.parentHash = b1.hash) (_hc3 : b3.parentHash = b2.hash)
    (_hc4 : b4.parentHash = b3.hash) (hp : b3'.parentHash = b2.hash)
    (hnd : [b1.hash, b2.hash, b3.hash, b4.hash, b3'.hash].Nodup) :
    reconcile client (fuel + 1) [b1, b2, b3, b4] b3' =
      ([b1, b2, b3'], .ok (some ⟨[b3'], [b3, b4]⟩)) ∧
    handleReconcile client (fuel + 1) [b1, b2, b3, b4] b3' = ([b1, b2, b3'], .ok ()) := by
  simp only [List.nodup_cons, List.mem_cons, List.not_mem_nil, List.mem_singleton,
    List.nodup_nil, and_true, not_or] at hnd
  obtain ⟨⟨h12, h13, h14, h15⟩, ⟨h23, h24, h25⟩, ⟨h34, h35⟩, h45⟩ := hnd
  have hne : ¬([b1, b2, b3, b4] : List Block) = [] := by simp
  have hex : ¬existsBlock [b1, b2, b3, b4] b3' = true := by
    simp [existsBlock, h15, h25, h35, h45]
  have hlast : ¬([b1, b2, b3, b4] : List Block).getLast?.map Block.hash
      = some b3'.parentHash := by
    rw [hp]
    simp [List.getLast?]
    exact fun hc => h24 hc.symm
  have hph : parentHashInHistory [b1, b2, b3, b4] b3'.parentHash = some 1 := by
    rw [hp]
    simp [parentHashInHistory, h12]
  constructor
  · rw [reconcile, if_neg hne, if_neg hex, if_neg hlast, hph]
    simp [addBlock, maxReconcileBlocks]
  · rw [handleReconcile, if_neg hne, if_neg hex, if_neg hlast, hph]
    simp [addBlock, maxReconcileBlocks]

/-- Witness for C2 at the concrete blocks of the repository's
"Multi Roll back" test case. -/
theorem reconcile_bounded_rollback_witness :
    reconcile (fun _ => none) 1 [⟨1, 0⟩, ⟨2, 1⟩, ⟨3, 2⟩, ⟨4, 3⟩] ⟨48, 2⟩ =
      ([⟨1, 0⟩, ⟨2, 1⟩, ⟨48, 2⟩], .ok (some ⟨[⟨48, 2⟩], [⟨3, 2⟩, ⟨4, 3⟩]⟩)) ∧
    handleReconcile (fun _ => none) 1 [⟨1, 0⟩, ⟨2, 1⟩, ⟨3, 2⟩, ⟨4, 3⟩] ⟨48, 2⟩ =
      ([⟨1, 0⟩, ⟨2, 1⟩, ⟨48, 2⟩], .ok ()) :=
  reconcile_bounded_rollback (fun _ => none) 0 ⟨1, 0⟩ ⟨2, 1⟩ ⟨3, 2⟩ ⟨4, 3⟩ ⟨48, 2⟩
    rfl rfl rfl rfl (by decide)

/-- C3: gap backfill.  With the buffer holding `[B1,B2]` and a client that
resolves `B3` (child of `B2`) and `B4` (child of `B3`) by their hashes,
reconciling `B5` (child of `B4`) fetches and reconciles the missing
parents first, yielding `Added = [B3,B4,B5]`, `Removed = []`, and the
final buffer `[B1,B2,B3,B4,B5]`; the src `handleReconcile` produces the
same final buffer.  Two backfill hops are needed, so any fuel ≥ 3
suffices. -/
theorem reconcile_gap_backfill (client : Client) (fuel : Nat)
    (b1 b2 b3 b4 b5 : Block)
    (hc3 : b3.parentHash = b2.hash) (hc4 : b4.parentHash = b3.hash)
    (hc5 : b5.parentHash = b4.hash)
    (hcl3 : client b3.hash = some b3) (hcl4 : client b4.hash = some b4)
    (hnd : [b1.hash, b2.hash, b3.hash, b4.hash, b5.hash].Nodup) :
    reconcile client (fuel + 3) [b1, b2] b5 =
      ([b1, b2, b3, b4, b5], .ok (some ⟨[b3, b4, b5], []⟩)) ∧
    handleReconcile client (fuel + 3) [b1, b2] b5 = ([b1, b2, b3, b4, b5], .ok ()) := by
  simp only [List.nodup_cons, List.mem_cons, List.not_mem_nil, List.mem_singleton,
    List.nodup_nil, and_true, not_or] at hnd
  obtain ⟨⟨h12, h13, h14, h15⟩, ⟨h23, h24, h25⟩, ⟨h34, h35⟩, h45⟩ := hnd
  have hex3 : ¬existsBlock [b1, b2] b3 = true := by simp [existsBlock, h13, h23]
  have hex4 : ¬existsBlock [b1, b2] b4 = true := by simp [existsBlock, h14, h24]
  have hex5 : ¬existsBlock [b1, b2] b5 = true := by simp [existsBlock, h15, h25]
  have hex4' : ¬existsBlock [b1, b2, b3] b4 = true := by
    simp [existsBlock, h14, h24, h34]
  have hex5' : ¬existsBlock [b1, b2, b3, b4] b5 = true := by
    simp [existsBlock, h15, h25, h35, h45]
  have hlast3 : ([b1, b2] : List Block).getLast?.map Block.hash = some b3.parentHash := by
    rw [hc3]; simp [List.getLast?]
  have hlast4 : ¬([b1, b2] : List Block).getLast?.map Block.hash = some b4.parentHash := by
    rw [hc4]; simp [List.getLast?]; exact fun hc => h23 hc
  have hlast5 : ¬([b1, b2] : List Block).getLast?.map Block.hash = some b5.parentHash := by
    rw [hc5]; simp [List.getLast?]; exact fun hc => h24 hc
  have hlast4' : ([b1, b2, b3] : List Block).getLast?.map Block.hash
      = some b4.parentHash := by
    rw [hc4]; simp [List.getLast?]
  have hlast5' : ([b1, b2, b3, b4] : List Block).getLast?.map Block.hash
      = some b5.parentHash := by
    rw [hc5]; simp [List.getLast?]
  have hph4 : parentHashInHistory [b1, b2] b4.parentHash = none := by
    rw [hc4]; simp [parentHashInHistory, h13, h23]
  have hph5 : parentHashInHistory [b1, b2] b5.parentHash = none := by
    rw [hc5]; simp [parentHashInHistory, h14, h24]
  have hcl4' : client b4.parentHash = some b3 := by rw [hc4]; exact hcl3
  have hcl5' : client b5.parentHash = some b4 := by rw [hc5]; exact hcl4
  have e3 : reconcile client (fuel + 1) [b1, b2] b3 =
      ([b1, b2, b3], .ok (some ⟨[b3], []⟩)) := by
    rw [reconcile_normal_append client fuel [b1, b2] b3 (by simp) hex3 hlast3]
    simp [addBlock, maxReconcileBlocks]
  have e4r : reconcile client (fuel + 1) [b1, b2, b3] b4 =
      ([b1, b2, b3, b4], .ok (some ⟨[b4], []⟩)) := by
    rw [reconcile_normal_append client fuel [b1, b2, b3] b4 (by simp) hex4' hlast4']
    simp [addBlock, maxReconcileBlocks]
  have e4 : reconcile client (fuel + 2) [b1, b2] b4 =
      ([b1, b2, b3, b4], .ok (some ⟨[b3, b4], []⟩)) := by
    rw [reconcile_backfill_eq client (fuel + 1) [b1, b2] b4 b3 (by simp) hex4 hlast4
      hph4 hcl4']
    rw [e3]
    simp [e4r, mergeEvents]
  have e5r : reconcile client (fuel + 2) [b1, b2, b3, b4] b5 =
      ([b1, b2, b3, b4, b5], .ok (some ⟨[b5], []⟩)) := by
    rw [reconcile_normal_append client (fuel + 1) [b1, b2, b3, b4] b5 (by simp) hex5'
      hlast5']
    simp [addBlock, maxReconcileBlocks]
  have f3 : handleReconcile client (fuel + 1) [b1, b2] b3 = ([b1, b2, b3], .ok ()) := by
    rw [handleReconcile_normal_append client fuel [b1, b2] b3 (by simp) hex3 hlast3]
    simp [addBlock, maxReconcileBlocks]
  have f4r : handleReconcile client (fuel + 1) [b1, b2, b3] b4 =
      ([b1, b2, b3, b4], .ok ()) := by
    rw [handleReconcile_normal_append client fuel [b1, b2, b3] b4 (by simp) hex4' hlast4']
    simp [addBlock, maxReconcileBlocks]
  have f4 : handleReconcile client (fuel + 2) [b1, b2] b4 =
      ([b1, b2, b3, b4], .ok ()) := by
    rw [handleReconcile_backfill_eq client (fuel + 1) [b1, b2] b4 b3 (by simp) hex4
      hlast4 hph4 hcl4']
    rw [f3]
    simp [f4r]
  have f5r : handleReconcile client (fuel + 2) [b1, b2, b3, b4] b5 =
      ([b1, b2, b3, b4, b5], .ok ()) := by
    rw [handleReconcile_normal_append client (fuel + 1) [b1, b2, b3, b4] b5 (by simp)
      hex5' hlast5']
    simp [addBlock, maxReconcileBlocks]
  constructor
  · rw [reconcile_backfill_eq client (fuel + 2) [b1, b2] b5 b4 (by simp) hex5 hlast5
      hph5 hcl5']
    rw [e4]
    simp [e5r, mergeEvents]
  · rw [handleReconcile_backfill_eq client (fuel + 2) [b1, b2] b5 b4 (by simp) hex5
      hlast5 hph5 hcl5']
    rw [f4]
    simp [f5r]

/-- Witness for C3 at the concrete blocks of the repository's
"Backfills missing blocks" test case. -/
theorem reconcile_gap_backfill_witness :
    reconcile (fun h => if h = 4 then some ⟨4, 3⟩ else if h = 3 then some ⟨3, 2⟩ else none)
        3 [⟨1, 0⟩, ⟨2, 1⟩] ⟨5, 4⟩ =
      ([⟨1, 0⟩, ⟨2, 1⟩, ⟨3, 2⟩, ⟨4, 3⟩, ⟨5, 4⟩],
        .ok (some ⟨[⟨3, 2⟩, ⟨4, 3⟩, ⟨5, 4⟩], []⟩)) ∧
    handleReconcile
        (fun h => if h = 4 then some ⟨4, 3⟩ else if h = 3 then some ⟨3, 2⟩ else none)
        3 [⟨1, 0⟩, ⟨2, 1⟩] ⟨5, 4⟩ =
      ([⟨1, 0⟩, ⟨2, 1⟩, ⟨3, 2⟩, ⟨4, 3⟩, ⟨5, 4⟩], .ok ()) :=
  reconcile_gap_backfill
    (fun h => if h = 4 then some ⟨4, 3⟩ else if h = 3 then some ⟨3, 2⟩ else none)
    0 ⟨1, 0⟩ ⟨2, 1⟩ ⟨3, 2⟩ ⟨4, 3⟩ ⟨5, 4⟩ rfl rfl rfl rfl rfl (by decide)

/-- C9: one poll tick behaves as follows.  A failed head fetch is
swallowed: the tracker (buffer and last observed block) is unchanged and
nothing is emitted.  A head whose hash equals the last observed hash is a
no-op.  Otherwise the last observed block is updated to the fetched head
and the head is handed onward: the callback runs (in reconcile mode
through `handleReconcile`, whose resulting buffer is installed) and the
step never returns the silent `.ok none` outcome. -/
theorem polling_step_behavior :
    (∀ client fuel t, pollStep client fuel none t = (t, .ok none)) ∧
    (∀ client fuel t block, t.lastBlock.map Block.hash = some block.hash →
        pollStep client fuel (some block) t = (t, .ok none)) ∧
    (∀ client fuel t block, ¬t.lastBlock.map Block.hash = some block.hash →
        pollStep client fuel (some block) t =
          ({ t with
              lastBlock := some block,
              blocks := if t.reconcile then (handleReconcile client fuel t.blocks block).1
                else t.blocks },
            if t.reconcile then
              match (handleReconcile client fuel t.blocks block).2 with
              | .ok () => .ok (some block)
              | .error e => .error e
            else .ok (some block)) ∧
        (pollStep client fuel (some block) t).2 ≠ .ok none) := by
  refine ⟨fun client fuel t => rfl, ?_, ?_⟩
  · intro client fuel t block h
    simp [pollStep, h]
  · intro client fuel t block h
    refine ⟨pollStep_new_head client fuel t block h, ?_⟩
    rw [pollStep_new_head client fuel t block h]
    by_cases hr : t.reconcile
    · simp only [hr, if_true]
      rcases (handleReconcile client fuel t.blocks block).2 with e | u
      · simp
      · cases u; simp
    · simp [hr]

/-- Witness for C9: with last observed hash 2, a failed fetch and a
repeated head are no-ops, while head `⟨3,2⟩` updates the state and emits. -/
theorem polling_step_behavior_witness :
    pollStep (fun _ => none) 1 none
        ⟨[⟨1, 0⟩, ⟨2, 1⟩], true, some ⟨2, 1⟩⟩ =
      (⟨[⟨1, 0⟩, ⟨2, 1⟩], true, some ⟨2, 1⟩⟩, .ok none) ∧
    pollStep (fun _ => none) 1 (some ⟨2, 1⟩)
        ⟨[⟨1, 0⟩, ⟨2, 1⟩], true, some ⟨2, 1⟩⟩ =
      (⟨[⟨1, 0⟩, ⟨2, 1⟩], true, some ⟨2, 1⟩⟩, .ok none) ∧
    pollStep (fun _ => none) 1 (some ⟨3, 2⟩)
        ⟨[⟨1, 0⟩, ⟨2, 1⟩], true, some ⟨2, 1⟩⟩ =
      (⟨[⟨1, 0⟩, ⟨2, 1⟩, ⟨3, 2⟩], true, some ⟨3, 2⟩⟩, .ok (some ⟨3, 2⟩)) :=
  ⟨polling_step_behavior.1 (fun _ => none) 1 ⟨[⟨1, 0⟩, ⟨2, 1⟩], true, some ⟨2, 1⟩⟩,
    polling_step_behavior.2.1 (fun _ => none) 1 ⟨[⟨1, 0⟩, ⟨2, 1⟩], true, some ⟨2, 1⟩⟩
      ⟨2, 1⟩ rfl,
    ((polling_step_behavior.2.2 (fun _ => none) 1 ⟨[⟨1, 0⟩, ⟨2, 1⟩], true, some ⟨2, 1⟩⟩
      ⟨3, 2⟩ (by decide)).1).trans (by rfl)⟩

/-- C8: the outbound payload shape is fixed at construction by the
reconcile flag, which `NewBlockTracker` stores and the dispatch step never
changes: with reconcile mode disabled the payload is the bare observed
block, and with it enabled every delivered payload is the aggregate event
produced by the reconciler for that head — never the raw head block. -/
theorem dispatch_mode_payload :
    (∀ reconcileMode, (NewBlockTracker reconcileMode).reconcile = reconcileMode) ∧
    (∀ client fuel t block,
        ((dispatchStep client fuel t block).1).reconcile = t.reconcile) ∧
    (∀ client fuel t block, t.reconcile = false →
        dispatchStep client fuel t block = (t, .ok (some (.bare block)))) ∧
    (∀ client fuel t block payload, t.reconcile = true →
        (dispatchStep client fuel t block).2 = .ok (some payload) →
        ∃ evnt, payload = .aggregate evnt ∧
          (reconcile client fuel t.blocks block).2 = .ok (some evnt)) := by
  refine ⟨fun reconcileMode => rfl, ?_, ?_, ?_⟩
  · intro client fuel t block
    by_cases hr : t.reconcile
    · rcases hh : reconcile client fuel t.blocks block with ⟨bs', r⟩
      rcases r with e | evnt
      · simp [dispatchStep, hr, hh]
      · rcases evnt with - | evnt
        · simp [dispatchStep, hr, hh]
        · simp [dispatchStep, hr, hh]
    · simp [dispatchStep, hr]
  · intro client fuel t block hr
    simp [dispatchStep, hr]
  · intro client fuel t block payload hr hp
    rcases hh : reconcile client fuel t.blocks block with ⟨bs', r⟩
    rcases r with e | evnt
    · rw [dispatchStep, hr] at hp
      simp [hh] at hp
    · rcases evnt with - | evnt
      · rw [dispatchStep, hr] at hp
        simp [hh] at hp
      · rw [dispatchStep, hr] at hp
        simp [hh] at hp
        exact ⟨evnt, hp.symm, by simp [hh]⟩

/-- Witness for C8: in non-reconciling mode the payload is the bare head;
in reconciling mode the delivered payload is the reconciler's aggregate
event. -/
theorem dispatch_mode_payload_witness :
    (NewBlockTracker false).reconcile = false ∧
    dispatchStep (fun _ => none) 1 ⟨[⟨1, 0⟩], false, none⟩ ⟨2, 1⟩ =
      (⟨[⟨1, 0⟩], false, none⟩, .ok (some (.bare ⟨2, 1⟩))) ∧
    (∃ evnt, (Payload.aggregate ⟨[⟨2, 1⟩], []⟩) = .aggregate evnt ∧
      (reconcile (fun _ => none) 1 [⟨1, 0⟩] ⟨2, 1⟩).2 = .ok (some evnt)) :=
  ⟨dispatch_mode_payload.1 false,
    dispatch_mode_payload.2.2.1 (fun _ => none) 1 ⟨[⟨1, 0⟩], false, none⟩ ⟨2, 1⟩ rfl,
    dispatch_mode_payload.2.2.2 (fun _ => none) 1 ⟨[⟨1, 0⟩], true, none⟩ ⟨2, 1⟩
      (.aggregate ⟨[⟨2, 1⟩], []⟩) rfl rfl⟩

/-- C10: if the observed block reaches, after `k` parent-hash hops through
the client, a block that one of the non-backfill cases resolves against
the buffer (ancestor already in history, empty buffer, or normal append),
then — assuming the client returns blocks whose hash is the requested
hash — `handleReconcile` terminates normally, with recursion depth (fuel)
bounded by `k + 1`. -/
theorem reconcile_terminates_within_hops
    (client : Client) (blocks : List Block) (block : Block) (n k fuel : Nat)
    (hhonest : ∀ h b, client h = some b → b.hash = h)
    (hhops : hopsToHistory client blocks n block = some k)
    (hfuel : k + 1 ≤ fuel) :
    ∃ blocks', handleReconcile client fuel blocks block = (blocks', .ok ()) := by
  induction n generalizing block k fuel with
  | zero => rw [hopsToHistory] at hhops; exact absurd hhops (by simp)
  | succ n ih =>
      rw [hopsToHistory] at hhops
      split at hhops
      · rename_i hcond
        obtain rfl : (0 : Nat) = k := Option.some.inj hhops
        obtain ⟨f, rfl⟩ : ∃ f, fuel = f + 1 := ⟨fuel - 1, by omega⟩
        by_cases h1 : blocks = []
        · subst h1
          exact ⟨addBlock [] block, by rw [handleReconcile, if_pos rfl]⟩
        by_cases h2 : existsBlock blocks block = true
        · exact ⟨blocks, handleReconcile_exists_noop client f blocks block h2⟩
        by_cases h3 : blocks.getLast?.map Block.hash = some block.parentHash
        · exact ⟨addBlock blocks block,
            handleReconcile_normal_append client f blocks block h1 h2 h3⟩
        · have h4 : (parentHashInHistory blocks block.parentHash).isSome = true := by
            rcases hcond with hc | hc | hc | hc
            · exact absurd hc h1
            · exact absurd hc h2
            · exact absurd hc h3
            · exact hc
          exact handleReconcile_parent_mem_ok client f blocks block
            ((parentHashInHistory_isSome _ _).mp h4)
      · rename_i hcond
        split at hhops
        · simp at hhops
        · rename_i parent hcl
          obtain ⟨j, hj, hk⟩ := Option.map_eq_some'.mp hhops
          subst hk
          obtain ⟨f, rfl⟩ : ∃ f, fuel = f + 1 := ⟨fuel - 1, by omega⟩
          have hf : j + 1 ≤ f := by omega
          obtain ⟨blocks2, hb2⟩ := ih parent j f hj hf
          have hph : parent.hash = block.parentHash := hhonest _ _ hcl
          rw [not_or, not_or, not_or] at hcond
          obtain ⟨h1, h2, h3, h4⟩ := hcond
          have h4' : parentHashInHistory blocks block.parentHash = none :=
            Option.not_isSome_iff_eq_none.mp h4
          rw [handleReconcile_backfill_eq client f blocks block parent h1
            (by simpa using h2) h3 h4' hcl]
          rw [hb2]
          have hmem2 : block.parentHash ∈ blocks2.map Block.hash := by
            rw [← hph]
            exact handleReconcile_ok_mem client f blocks parent blocks2 hb2
          obtain ⟨f', rfl⟩ : ∃ f', f = f' + 1 := ⟨f - 1, by omega⟩
          obtain ⟨blocks3, hb3⟩ :=
            handleReconcile_parent_mem_ok client f' blocks2 block hmem2
          exact ⟨blocks3, hb3⟩

/-- Witness for C10: reconciling `⟨5,4⟩` against `[⟨1,0⟩,⟨2,1⟩]` needs two
backfill hops (`k = 2`), and fuel `3` already suffices for a normal
return. -/
theorem reconcile_terminates_within_hops_witness :
    ∃ blocks',
      handleReconcile
        (fun h => if h = 4 then some ⟨4, 3⟩ else if h = 3 then some ⟨3, 2⟩ else none)
        3 [⟨1, 0⟩, ⟨2, 1⟩] ⟨5, 4⟩ = (blocks', .ok ()) :=
  reconcile_terminates_within_hops
    (fun h => if h = 4 then some ⟨4, 3⟩ else if h = 3 then some ⟨3, 2⟩ else none)
    [⟨1, 0⟩, ⟨2, 1⟩] ⟨5, 4⟩ 5 2 3
    (fun h b hb => by
      by_cases h4 : h = 4
      · subst h4; simp at hb; rw [← hb]
      · by_cases h3 : h = 3
        · subst h3; simp [h4] at hb; rw [← hb]
        · simp [h4, h3] at hb)
    (by decide) (by decide)

/-- C7: every reconcile call preserves the buffer linkage invariant.
Assuming the client returns, for a requested hash, a block whose hash
equals that hash, if every adjacent pair of the buffer satisfies
`next.ParentHash = prev.Hash` (trivially so for empty or singleton
buffers) before a `handleReconcile` call, the returned buffer satisfies
the same property — on the normal return and even at the moment an error
propagates. -/
theorem reconcile_preserves_linkage
    (client : Client) (fuel : Nat) (blocks : List Block) (block : Block)
    (blocks' : List Block) (r : Except String Unit)
    (_hhonest : ∀ h b, client h = some b → b.hash = h)
    (hc : Chained blocks)
    (h : handleReconcile client fuel blocks block = (blocks', r)) :
    Chained blocks' :=
  handleReconcile_preserves_chained client fuel blocks block blocks' r hc h

/-- Witness for C7: a rollback of `[⟨1,0⟩,⟨2,1⟩,⟨3,2⟩,⟨4,3⟩]` to the fork
block `⟨48,2⟩` keeps the buffer chained. -/
theorem reconcile_preserves_linkage_witness :
    Chained [⟨1, 0⟩, ⟨2, 1⟩, ⟨48, 2⟩] :=
  reconcile_preserves_linkage (fun _ => none) 1
    [⟨1, 0⟩, ⟨2, 1⟩, ⟨3, 2⟩, ⟨4, 3⟩] ⟨48, 2⟩ [⟨1, 0⟩, ⟨2, 1⟩, ⟨48, 2⟩] (.ok ())
    (fun _ _ hb => Option.noConfusion hb)
    (by simp [Chained, List.chain'_cons]) rfl

/-- C1: `reconcile(observedBlock)` has result type `(Event | none, error)`
and its event output equals the buffer mutations it applied, in
application order.  `reconcileLog` is `reconcile` instrumented with the
list of history-buffer operations performed (appends and truncations,
spec §4.1); it produces the same buffer and result as `reconcile`,
replaying its mutation list on the initial buffer yields the final
buffer, the event's Added entries are exactly the appended blocks in
application order (ancestors before descendants), its Removed entries are
exactly the truncation discards, earliest-evicted first, and a `none`
event means no mutation was applied at all. -/
theorem reconcile_event_equals_mutations (client : Client) (fuel : Nat)
    (blocks : List Block) (block : Block) (blocks' : List Block)
    (ms : List Mut) (r : Except String (Option Event))
    (h : reconcileLog client fuel blocks block = (blocks', ms, r)) :
    reconcile client fuel blocks block = (blocks', r) ∧
    ∀ oevt, r = .ok oevt →
      blocks' = applyMuts blocks ms ∧
      eventAdded oevt = appendsOf ms ∧
      eventRemoved oevt = discardsOf blocks ms ∧
      (oevt = none → ms = []) := by
  constructor
  · rw [reconcile_eq_reconcileLog client fuel blocks block, h]
  · intro oevt hoevt
    subst hoevt
    exact reconcileLog_mutations client fuel blocks block blocks' ms oevt h

/-- Witness for C1 at the combined rollback-and-backfill scenario of the
repository's tests: the event records exactly the one truncation and the
three appends, in application order. -/
theorem reconcile_event_equals_mutations_witness :
    reconcile
        (fun h => if h = 48 then some ⟨48, 2⟩ else if h = 64 then some ⟨64, 48⟩ else none)
        5 [⟨1, 0⟩, ⟨2, 1⟩, ⟨3, 2⟩, ⟨4, 3⟩] ⟨80, 64⟩ =
      ([⟨1, 0⟩, ⟨2, 1⟩, ⟨48, 2⟩, ⟨64, 48⟩, ⟨80, 64⟩],
        .ok (some ⟨[⟨48, 2⟩, ⟨64, 48⟩, ⟨80, 64⟩], [⟨3, 2⟩, ⟨4, 3⟩]⟩)) ∧
    ([⟨1, 0⟩, ⟨2, 1⟩, ⟨48, 2⟩, ⟨64, 48⟩, ⟨80, 64⟩] : List Block) =
      applyMuts [⟨1, 0⟩, ⟨2, 1⟩, ⟨3, 2⟩, ⟨4, 3⟩]
        [.truncate 1, .append ⟨48, 2⟩, .append ⟨64, 48⟩, .append ⟨80, 64⟩] ∧
    eventAdded (some ⟨[⟨48, 2⟩, ⟨64, 48⟩, ⟨80, 64⟩], [⟨3, 2⟩, ⟨4, 3⟩]⟩) =
      appendsOf [.truncate 1, .append ⟨48, 2⟩, .append ⟨64, 48⟩, .append ⟨80, 64⟩] ∧
    eventRemoved (some ⟨[⟨48, 2⟩, ⟨64, 48⟩, ⟨80, 64⟩], [⟨3, 2⟩, ⟨4, 3⟩]⟩) =
      discardsOf [⟨1, 0⟩, ⟨2, 1⟩, ⟨3, 2⟩, ⟨4, 3⟩]
        [.truncate 1, .append ⟨48, 2⟩, .append ⟨64, 48⟩, .append ⟨80, 64⟩] :=
  have h := reconcile_event_equals_mutations
    (fun h => if h = 48 then some ⟨48, 2⟩ else if h = 64 then some ⟨64, 48⟩ else none)
    5 [⟨1, 0⟩, ⟨2, 1⟩, ⟨3, 2⟩, ⟨4, 3⟩] ⟨80, 64⟩
    [⟨1, 0⟩, ⟨2, 1⟩, ⟨48, 2⟩, ⟨64, 48⟩, ⟨80, 64⟩]
    [.truncate 1, .append ⟨48, 2⟩, .append ⟨64, 48⟩, .append ⟨80, 64⟩]
    (.ok (some ⟨[⟨48, 2⟩, ⟨64, 48⟩, ⟨80, 64⟩], [⟨3, 2⟩, ⟨4, 3⟩]⟩)) rfl
  ⟨h.1, (h.2 _ rfl).1, (h.2 _ rfl).2.1, (h.2 _ rfl).2.2.1⟩

end Claims

end BlockTracker
